import Mathlib

/-!
Shallow embedding of the cutout preparation pipeline of the geodata
repository (`geodata/preparation.py`, with `atlite/preparation.py` as the
legacy variant), together with theorems settling the specification claims.

Modelling conventions:
* machine state touched by the code is made explicit: the archive directory
  (`cutout_dir`) is an association list from file paths to datasets, and
  `Option Dir` distinguishes an absent directory from an existing one;
* a provider `prepare_func` is modelled by the data it would produce: an
  `Except Err` value holding the optional list of `(year-month, dataset)`
  pairs (`.error` models the function raising);
* xarray datasets are modelled as named index-coordinate variables plus
  named data variables; the merge operation
  (`xr.open_mfdataset(combine='by_coords')`, default `compat='no_conflicts'`)
  is modelled at the level of: index coordinates present in several files are
  combined by taking the union of their values (concatenate / outer join)
  and never conflict by themselves, while a data variable present in two
  merged datasets with different values is a merge conflict;
* Python exceptions are the constructors of `Err`; the spec's abstract error
  names map to: `AlreadyPreparedError`/`.alreadyPrepared`,
  `SchemaInferenceError`/`.schemaInference` (the IndexError raised when the
  probe time axis is indexed at `[[0, 1, -1]]` with < 2 samples),
  `MergeConflictError`/`.mergeConflict`, `InvariantViolationError`/
  `.invariantViolation` (Python `assert` failures).
-/

namespace Geodata

/-- A year-month period identifier. -/
abbrev YM := Nat × Nat

/-- Model of an xarray dataset: named coordinate variables (each a list of
coordinate values) and named data variables (each holding a payload value). -/
structure DS where
  coords : List (String × List Int)
  vars : List (String × Int)
deriving DecidableEq, Repr

/-- Paths inside the archive directory: the metadata file written by
`cutout_prepare`, the final per-period file `cutout.datasetfn(ym)`, and the
per-task staging file with the `-i` suffix from `datasetfn_with_id`. -/
inductive FsPath
  | meta
  | final (ym : YM)
  | staging (ym : YM) (i : Nat)
deriving DecidableEq, Repr

/-- The archive directory: an association list from paths to file contents. -/
abbrev Dir := List (FsPath × DS)

/-- The exceptions the modelled code can raise. -/
inductive Err
  | alreadyPrepared
  | schemaInference
  | mergeConflict
  | invariantViolation
  | keyError (ym : YM)
  | emptyMerge
  | provider (code : Nat)
deriving DecidableEq, Repr

/-- Write (create or overwrite) a file, as `ds.to_netcdf(fn)` does. -/
def fsWrite (d : Dir) (p : FsPath) (ds : DS) : Dir :=
  d.filter (fun e => decide (e.1 ≠ p)) ++ [(p, ds)]

/-- Delete the files at the given paths, as `os.unlink` does. -/
def fsEraseAll (d : Dir) (ps : List FsPath) : Dir :=
  d.filter (fun e => decide (e.1 ∉ ps))

/-- Look a file up by path. -/
def fsLookup (d : Dir) (p : FsPath) : Option DS :=
  (d.find? (fun e => decide (e.1 = p))).map (·.2)

/-- Model of a Python slice value as used for the `ys` latitude range. -/
structure PySlice where
  start : Int
  stop : Int
  step : Option Int
deriving DecidableEq, Repr

/-- Embedding of `_prepare_lat_direction` (geodata/preparation.py:324-333):
checks the direction of the latitude slice against the dataset convention and
flips the slice (negating an explicit step on the north-to-south flip) when
it points the wrong way. -/
def prepare_lat_direction (lat_direction : Bool) (ys : PySlice) : PySlice :=
  let ys1 := if lat_direction = false ∧ ys.stop > ys.start then
    ⟨ys.stop, ys.start, ys.step.map (fun s => -s)⟩ else ys
  if lat_direction = true ∧ ys1.stop < ys1.start then
    ⟨ys1.stop, ys1.start, ys1.step⟩ else ys1

/-! ## Task executor (`cutout_do_task`, geodata/preparation.py:42-73) -/

/-- A task descriptor, as produced by a series' `tasks_func`.  The behaviour
of the bound `prepare_func` is given by `run`: `.error e` models the provider
call raising exception `e`; `.ok none` models it returning `None`; `.ok
(some data)` models it yielding the `(yearmonth, dataset-or-None)` pairs in
`data`. -/
structure Task where
  run : Except Err (Option (List (YM × Option DS)))

/-- The write loop of `cutout_do_task` (geodata/preparation.py:56-63): for
each `(yearmonth, ds)` pair, skip the pair if `ds is None`, otherwise look
the destination up in `datasetfns` (a missing key raises `KeyError`) and
write the dataset there with `to_netcdf`. -/
def writeResults (dfns : YM → Option FsPath) :
    List (YM × Option DS) → Dir → Except Err Dir
  | [], d => .ok d
  | (_, none) :: rest, d => writeResults dfns rest d
  | (ym, some ds) :: rest, d =>
    match dfns ym with
    | none => .error (.keyError ym)
    | some p => writeResults dfns rest (fsWrite d p ds)

/-- Embedding of `cutout_do_task`: runs the task's `prepare_func`
(re-raising its exception unchanged after logging), normalizes a `None`
result to `[]`, then either writes each non-`None` partial dataset to its
staging file (`write_to_file=True`, returning no data) or returns the data
in memory untouched (`write_to_file=False`). -/
def cutout_do_task (t : Task) (write_to_file : Bool) (dfns : YM → Option FsPath)
    (dir : Dir) : Except Err (Dir × Option (List (YM × Option DS))) :=
  match t.run with
  | .error e => .error e
  | .ok odata =>
    let data := odata.getD []
    if write_to_file then
      match writeResults dfns data dir with
      | .error e => .error e
      | .ok d1 => .ok (d1, none)
    else
      .ok (dir, some data)

/-! ## Preparation orchestrator (`cutout_prepare`, geodata/preparation.py:75-181) -/

/-- The cutout object, restricted to the fields `cutout_prepare` and
`cutout_produce_specific_dataseries` read.  `tasks_func` is the series'
task-generation function, called with the requested list of year-months;
`heightVal` is the value `_prepare_gebco_height` would compute for the grid
(the auxiliary elevation collaborator is an external input here). -/
structure Cutout where
  prepared : Bool
  yearmonths : List YM
  metaDS : DS
  heightVal : Int
  tasks_func : List YM → List Task

/-- Embedding of `datasetfn_with_id` (geodata/preparation.py:135-139): the
staging destination map handed to task number `i`, defined exactly on the
requested year-months (a lookup outside raises `KeyError`). -/
def datasetfn_with_id (yms : List YM) (i : Nat) (ym : YM) : Option FsPath :=
  if ym ∈ yms then some (.staging ym i) else none

/-- The `pool.map(cutout_do_task, tasks)` call, serialized: run each indexed
task in write mode; the first exception aborts the batch and is the one the
orchestrator observes. -/
def runTasks (yms : List YM) : List (Nat × Task) → Dir → Except Err Dir
  | [], d => .ok d
  | (i, t) :: rest, d =>
    match cutout_do_task t true (datasetfn_with_id yms i) d with
    | .error e => .error e
    | .ok (d1, _) => runTasks yms rest d1

/-- Set (or overwrite) a data variable, as `ds['height'] = value` does. -/
def setVar (m : DS) (n : String) (v : Int) : DS :=
  ⟨m.coords, m.vars.filter (fun nv => decide (nv.1 ≠ n)) ++ [(n, v)]⟩

/-- Named-variable lookup in a dataset's variable list (first occurrence). -/
def alookup {β : Type} (n : String) : List (String × β) → Option β
  | [] => none
  | (k, v) :: tl => if k = n then some v else alookup n tl

/-- Merge compatibility under `compat='no_conflicts'` (the
`open_mfdataset(combine='by_coords')` default): a data variable present in
both datasets must carry identical values; index coordinates never conflict
by themselves — when their values differ the combination concatenates /
outer-joins them instead (see `dsCombine`). -/
def compatible (a b : DS) : Bool :=
  a.vars.all (fun nv =>
    match alookup nv.1 b.vars with
    | some w => decide (nv.2 = w)
    | none => true)

/-- Union of two coordinate value lists: the values of the first followed by
the values of the second not already present — the model of concatenating /
outer-joining two index coordinates that report different values. -/
def coordUnion (a b : List Int) : List Int :=
  a ++ b.filter (fun v => decide (v ∉ a))

/-- Combination of two compatible datasets: index coordinates shared by both
are combined by value union, other coordinates and the data variables are
collected with the first occurrence winning. -/
def dsCombine (a b : DS) : DS :=
  ⟨a.coords.map (fun nv =>
      match alookup nv.1 b.coords with
      | some w => (nv.1, coordUnion nv.2 w)
      | none => nv) ++
    b.coords.filter (fun nv => decide (alookup nv.1 a.coords = none)),
   a.vars ++ b.vars.filter (fun nv => decide (alookup nv.1 a.vars = none))⟩

/-- Combine two datasets, raising `MergeConflictError` when a shared data
variable disagrees (`no_conflicts`); disagreeing index coordinates are
unioned, not rejected. -/
def merge2 (a b : DS) : Except Err DS :=
  if compatible a b then .ok (dsCombine a b) else .error .mergeConflict

/-- Left fold of `merge2` over the remaining datasets. -/
def mergeFold : DS → List DS → Except Err DS
  | acc, [] => .ok acc
  | acc, x :: xs =>
    match merge2 acc x with
    | .error e => .error e
    | .ok m => mergeFold m xs

/-- Embedding of `xr.open_mfdataset(fns, combine='by_coords')` on the staged
datasets: combining an empty file list raises (OSError in xarray), otherwise
the datasets are folded together with conflict detection. -/
def mergeAll : List DS → Except Err DS
  | [] => .error .emptyMerge
  | x :: xs => mergeFold x xs

/-- Test whether a path is a staging file of the given period, as the glob
`base + "-*" + ext` matches it. -/
def isStagingOf (ym : YM) : FsPath → Bool
  | .staging ym1 _ => decide (ym1 = ym)
  | _ => false

/-- The glob over the archive directory for one period's staging files. -/
def globStaging (d : Dir) (ym : YM) : Dir :=
  d.filter (fun e => isStagingOf ym e.1)

/-- The multi-file branch of the merge stage: combine the globbed staging
files with `open_mfdataset`, overlay the gebco height when requested, write
the combined dataset to the final per-period file and unlink every staging
file. -/
def mergeWrite (gebco : Bool) (hv : Int) (ym : YM) (d : Dir) (fns : Dir) :
    Except Err Dir :=
  match mergeAll (fns.map (·.2)) with
  | .error e => .error e
  | .ok m =>
    let m1 := if gebco then setVar m "height" hv else m
    .ok (fsEraseAll (fsWrite d (.final ym) m1) (fns.map (·.1)))

/-- Dispatch on the glob result: exactly one staging file and no gebco
height is the cheap rename path, anything else goes through the combining
branch. -/
def mergeGlobbed (gebco : Bool) (hv : Int) (ym : YM) (d : Dir) :
    Dir → Except Err Dir
  | [(p, ds)] =>
    if gebco then mergeWrite gebco hv ym d [(p, ds)]
    else .ok (fsWrite (fsEraseAll d [p]) (.final ym) ds)
  | fns => mergeWrite gebco hv ym d fns

/-- The merge stage for one period (geodata/preparation.py:161-178): glob
the period's staging files; a single staging file (and no gebco height) is
renamed to the final path, otherwise all staging files are combined, the
height overlay is applied when requested, the combined dataset is written to
the final path and every staging file is deleted. -/
def mergePeriod (gebco : Bool) (hv : Int) (ym : YM) (d : Dir) : Except Err Dir :=
  mergeGlobbed gebco hv ym d (globStaging d ym)

/-- The merge loop over all requested periods; an exception from one
period's merge propagates, leaving the directory in its current state. -/
def mergeLoop (gebco : Bool) (hv : Int) : List YM → Dir → Dir × Option Err
  | [], d => (d, none)
  | ym :: rest, d =>
    match mergePeriod gebco hv ym d with
    | .error e => (d, some e)
    | .ok d1 => mergeLoop gebco hv rest d1

/-- Embedding of `cutout_prepare`.  Returns the archive directory after the
call (`none` = the directory does not exist) paired with the outcome: `.ok
(some true)` is the early `return True` on an already prepared cutout, `.ok
none` is the implicit `return None` of a completed preparation, `.error e`
models the call raising `e`.

Control flow from the source: early return when prepared and not overwrite;
optionally interpolate the gebco height into the metadata; delete any
existing directory and recreate it empty; write the metadata file; collect
the tasks and annotate task `i` with `datasetfn_with_id`; run all tasks via
the pool — on any task exception delete the whole directory and re-raise;
finally merge each period's staging files and mark the cutout prepared. -/
def cutout_prepare (c : Cutout) (overwrite : Bool) (gebco_height : Bool)
    (dir : Option Dir) : Option Dir × Except Err (Option Bool) :=
  if c.prepared = true ∧ overwrite = false then (dir, .ok (some true))
  else
    let meta := if gebco_height then setVar c.metaDS "height" c.heightVal
      else c.metaDS
    let yms := c.yearmonths
    let d1 : Dir := fsWrite [] .meta meta
    match runTasks yms (c.tasks_func yms).enum d1 with
    | .error e => (none, .error e)
    | .ok d2 =>
      match mergeLoop gebco_height c.heightVal yms d2 with
      | (d3, some e) => (some d3, .error e)
      | (d3, none) => (some d3, .ok none)

/-! ## Single-period query (`cutout_produce_specific_dataseries`,
geodata/preparation.py:183-194) -/

/-- The `assert len(data) == 1 and data[0][0] == yearmonth` check of
`cutout_produce_specific_dataseries`, followed by `return data[0][1]`. -/
def produceCheckData (d1 : Dir) (ym : YM) : List (YM × Option DS) → Except Err (Dir × Option DS)
  | [(ym1, ods)] =>
    if ym1 = ym then .ok (d1, ods) else .error .invariantViolation
  | _ => .error .invariantViolation

/-- The `assert len(tasks) == 1` check of
`cutout_produce_specific_dataseries`, followed by the in-memory task run and
the result-cardinality check. -/
def produceRun (ym : YM) (dir : Dir) : List Task → Except Err (Dir × Option DS)
  | [t] =>
    match cutout_do_task t false (fun _ => none) dir with
    | .error e => .error e
    | .ok (d1, odata) => produceCheckData d1 ym (odata.getD [])
  | _ => .error .invariantViolation

/-- Embedding of `cutout_produce_specific_dataseries`: generate the tasks
for the single requested year-month, `assert len(tasks) == 1`, run the task
in query mode (`write_to_file=False`), `assert len(data) == 1 and data[0][0]
== yearmonth`, and return `data[0][1]`.  Assertion failures are
`InvariantViolationError`. -/
def cutout_produce_specific_dataseries (c : Cutout) (ym : YM) (dir : Dir) :
    Except Err (Dir × Option DS) :=
  produceRun ym dir (c.tasks_func [ym])

/-! ## Metadata resolver (`cutout_get_meta`, geodata/preparation.py:196-257) -/

/-- A Gregorian calendar date. -/
structure Date where
  year : Nat
  month : Nat
  day : Nat
deriving DecidableEq, Repr

/-- Gregorian leap-year rule, as `calendar.isleap`. -/
def isLeap (y : Nat) : Bool :=
  y % 4 = 0 && (y % 100 != 0 || y % 400 = 0)

/-- Length of a month, as `calendar.monthrange(y, m)[1]`. -/
def daysInMonth (y m : Nat) : Nat :=
  if m = 2 then (if isLeap y then 29 else 28)
  else if m = 4 ∨ m = 6 ∨ m = 9 ∨ m = 11 then 30 else 31

/-- Days of the year elapsed before month `m`. -/
def daysBeforeMonth (y m : Nat) : Nat :=
  (List.range (m - 1)).foldl (fun acc i => acc + daysInMonth y (i + 1)) 0

/-- Gregorian day number of a date (proleptic, day 1 = 0001-01-01), used to
place timestamps on a linear hour axis. -/
def rataDie (d : Date) : Nat :=
  let y := d.year - 1
  365 * y + y / 4 - y / 100 + y / 400 + daysBeforeMonth d.year d.month + d.day

/-- The first day of the month after `(y, m)`, i.e. `month_start +
pd.offsets.MonthBegin()`. -/
def monthBeginNext (y m : Nat) : Date :=
  if m = 12 then ⟨y + 1, 1, 1⟩ else ⟨y, m + 1, 1⟩

/-- Linear index of a year-month on the month axis. -/
def monthIdx (y m : Nat) : Nat := 12 * y + (m - 1)

/-- Year-month of a linear month index. -/
def monthOfIdx (n : Nat) : Nat × Nat := (n / 12, n % 12 + 1)

/-- The consecutive months from `(ys, ms)` to `(ye, me)` inclusive; this is
`pd.date_range(start, end, freq='MS')` read as year-month pairs. -/
def monthRange (ys ms ye me : Nat) : List (Nat × Nat) :=
  (List.range' (monthIdx ys ms) (monthIdx ye me + 1 - monthIdx ys ms)).map monthOfIdx

/-- The calendar days of one month, in order. -/
def daysOfMonth (y m : Nat) : List Date :=
  (List.range (daysInMonth y m)).map (fun d => ⟨y, m, d + 1⟩)

/-- Model of `pd.date_range(start=Timestamp(ys, ms, 1), end=Timestamp(ye,
me, monthrange(ye, me)[1]), freq='d')` — the call the `dailymeans` branch
makes: every calendar day of every month from `(ys, ms)` to `(ye, me)`, in
chronological order. -/
def dateRangeDaily (ys ms ye me : Nat) : List Date :=
  (monthRange ys ms ye me).flatMap (fun p => daysOfMonth p.1 p.2)

/-- Model of `pd.date_range(start, end, freq=f'{step}h')` on an hour axis:
the hours `s, s + step, ...` not exceeding `e` (empty when the range is
reversed or the step degenerate). -/
def hourRange (s e step : Int) : List Int :=
  if 0 < step ∧ s ≤ e then
    (List.range (((e - s) / step).toNat + 1)).map (fun i => s + step * i)
  else []

/-- The cartesian `year × month` stacking of `ds.stack(**{'year-month':
('year', 'month')})`. -/
def stackYM (years months : List Nat) : List (Nat × Nat) :=
  years.flatMap (fun y => months.map (fun m => (y, m)))

/-- The three `file_granularity` policies the resolver handles. -/
inductive Granularity
  | daily
  | dailymeans
  | monthly
deriving DecidableEq, Repr

/-- The synthesized time axis, in the unit native to each granularity. -/
inductive TimeAxis
  | hours (l : List Int)
  | days (l : List Date)
  | monthStarts (l : List (Nat × Nat))
deriving DecidableEq, Repr

/-- The inputs `cutout_get_meta` reads: the dataset module's latitude
convention, the configured `file_granularity`, and the `time` coordinate of
the dataset returned by the provider's metadata probe `prepare_func`
(timestamps on an hour axis). -/
structure MetaConfig where
  lat_direction : Bool
  file_granularity : Granularity
  probeTime : List Int
deriving Repr

/-- The metadata the resolver returns: the normalized latitude slice, the
synthesized `time` coordinate and the `year`, `month` and stacked
`year-month` coordinates. -/
structure MetaResult where
  ysNorm : PySlice
  time : TimeAxis
  years : List Nat
  months : List Nat
  yearMonths : List (Nat × Nat)
deriving Repr

/-- Embedding of `cutout_get_meta`: normalize the latitude slice, probe the
provider (its result is `cfg.probeTime`), attach the `year` and `month`
coordinate ranges, then synthesize the `time` axis per granularity:

* `daily`: read samples `[0, 1, -1]` of the probe time axis — fewer than two
  samples raises (IndexError, the spec's `SchemaInferenceError`); infer the
  step as the hours component of `second - start` and lay out an hourly axis
  from the start offset in the first requested month to the end offset after
  the last requested month;
* `dailymeans`: one timestamp per calendar day from the first day of the
  start month through the last day of the end month;
* `monthly`: one timestamp per month at each month start.

The `months` argument defaults to `slice(1, 12)`. -/
def cutout_get_meta (cfg : MetaConfig) (ys : PySlice) (years : Nat × Nat)
    (months : Option (Nat × Nat)) : Except Err MetaResult :=
  let mo := months.getD (1, 12)
  let ysN := prepare_lat_direction cfg.lat_direction ys
  let yearsC := List.range' years.1 (years.2 + 1 - years.1)
  let monthsC := List.range' mo.1 (mo.2 + 1 - mo.1)
  match cfg.file_granularity with
  | .daily =>
    match cfg.probeTime with
    | s0 :: s1 :: rest =>
      let tEnd := (s1 :: rest).getLast (by simp)
      let monthStart : Int := 24 * (rataDie ⟨years.2, mo.2, 1⟩ : Int)
      let nextBegin : Int := 24 * (rataDie (monthBeginNext years.2 mo.2) : Int)
      let offS := s0 - monthStart
      let offE := tEnd - nextBegin
      let step := (s1 - s0) % 24
      .ok ⟨ysN,
        .hours (hourRange (24 * (rataDie ⟨years.1, mo.1, 1⟩ : Int) + offS)
          (nextBegin + offE) step),
        yearsC, monthsC, stackYM yearsC monthsC⟩
    | _ => .error .schemaInference
  | .dailymeans =>
    .ok ⟨ysN, .days (dateRangeDaily years.1 mo.1 years.2 mo.2),
      yearsC, monthsC, stackYM yearsC monthsC⟩
  | .monthly =>
    .ok ⟨ysN, .monthStarts (monthRange years.1 mo.1 years.2 mo.2),
      yearsC, monthsC, stackYM yearsC monthsC⟩

/-! ## Supporting lemmas -/

theorem cutout_do_task_raises (t : Task) (e : Err) (b : Bool)
    (dfns : YM → Option FsPath) (dir : Dir) (h : t.run = .error e) :
    cutout_do_task t b dfns dir = .error e := by
  simp [cutout_do_task, h]

theorem cutout_do_task_query_mode (t : Task) (od : Option (List (YM × Option DS)))
    (dfns : YM → Option FsPath) (dir : Dir) (h : t.run = .ok od) :
    cutout_do_task t false dfns dir = .ok (dir, some (od.getD [])) := by
  simp [cutout_do_task, h]

theorem writeResults_skip_none (dfns : YM → Option FsPath) (pre post : List (YM × Option DS))
    (ym : YM) (d : Dir) :
    writeResults dfns (pre ++ (ym, none) :: post) d = writeResults dfns (pre ++ post) d := by
  induction pre generalizing d with
  | nil => simp [writeResults]
  | cons hd tl ih =>
    obtain ⟨ym1, ods⟩ := hd
    cases ods with
    | none =>
      simp only [List.cons_append, writeResults]
      exact ih d
    | some ds =>
      cases h : dfns ym1 <;> simp [writeResults, h, ih]

/-- The exception, if any, that executing task number `i` in write mode
raises.  Whether a task raises, and which exception, does not depend on the
directory contents, so it is probed on the empty directory. -/
def taskError (yms : List YM) (i : Nat) (t : Task) : Option Err :=
  match cutout_do_task t true (datasetfn_with_id yms i) [] with
  | .error e => some e
  | .ok _ => none

theorem writeResults_error_iff (dfns : YM → Option FsPath) (l : List (YM × Option DS))
    (d d' : Dir) (e : Err) :
    writeResults dfns l d = .error e ↔ writeResults dfns l d' = .error e := by
  induction l generalizing d d' with
  | nil => simp [writeResults]
  | cons hd tl ih =>
    obtain ⟨ym, ods⟩ := hd
    cases ods with
    | none => simp only [writeResults]; exact ih d d'
    | some ds =>
      cases hdf : dfns ym with
      | none => simp [writeResults, hdf]
      | some p => simp only [writeResults, hdf]; exact ih _ _

theorem cutout_do_task_error_iff (t : Task) (dfns : YM → Option FsPath)
    (d d' : Dir) (e : Err) :
    cutout_do_task t true dfns d = .error e ↔ cutout_do_task t true dfns d' = .error e := by
  cases hrun : t.run with
  | error e1 => simp [cutout_do_task, hrun]
  | ok od =>
    simp only [cutout_do_task, hrun, if_pos rfl]
    cases hw : writeResults dfns (od.getD []) d with
    | error e1 =>
      rw [(writeResults_error_iff dfns (od.getD []) d d' e1).mp hw]
      simp
    | ok dd =>
      cases hw' : writeResults dfns (od.getD []) d' with
      | error e2 =>
        have := (writeResults_error_iff dfns (od.getD []) d' d e2).mp hw'
        rw [hw] at this; cases this
      | ok dd' => simp

theorem alookup_mem {β : Type} (l : List (String × β)) (n : String) (v : β)
    (h : alookup n l = some v) : (n, v) ∈ l := by
  induction l with
  | nil => simp [alookup] at h
  | cons hd tl ih =>
    obtain ⟨k, w⟩ := hd
    by_cases hk : k = n
    · subst hk
      simp [alookup] at h
      simp [h]
    · simp only [alookup, if_neg hk] at h
      exact List.mem_cons_of_mem _ (ih h)

theorem alookup_append_left {β : Type} (l1 l2 : List (String × β)) (n : String)
    (v : β) (h : alookup n l1 = some v) : alookup n (l1 ++ l2) = some v := by
  induction l1 with
  | nil => simp [alookup] at h
  | cons hd tl ih =>
    obtain ⟨k, w⟩ := hd
    by_cases hk : k = n
    · subst hk
      simp [alookup] at h
      simp [alookup, h]
    · simp only [List.cons_append, alookup, if_neg hk] at h ⊢
      exact ih h

theorem alookup_append_right {β : Type} (l1 l2 : List (String × β)) (n : String)
    (h : alookup n l1 = none) : alookup n (l1 ++ l2) = alookup n l2 := by
  induction l1 with
  | nil => simp
  | cons hd tl ih =>
    obtain ⟨k, w⟩ := hd
    by_cases hk : k = n
    · subst hk; simp [alookup] at h
    · simp only [List.cons_append, alookup, if_neg hk] at h ⊢
      exact ih h

theorem alookup_filter {β : Type} (l : List (String × β)) (P : String × β → Bool)
    (n : String) (hP : ∀ v, P (n, v) = true) :
    alookup n (l.filter P) = alookup n l := by
  induction l with
  | nil => rfl
  | cons hd tl ih =>
    obtain ⟨k, w⟩ := hd
    by_cases hk : k = n
    · subst hk
      rw [List.filter_cons, hP w]
      simp [alookup, ih]
    · rw [List.filter_cons]
      cases hPk : P (k, w) <;> simp [alookup, hk, ih]

theorem merge2_ok_varlookup (a b m : DS) (h : merge2 a b = .ok m) :
    (∀ n v, alookup n a.vars = some v → alookup n m.vars = some v) ∧
    (∀ n v, alookup n b.vars = some v → alookup n m.vars = some v) := by
  by_cases hc : compatible a b
  · rw [merge2, if_pos hc] at h
    obtain rfl : dsCombine a b = m := by simpa using h
    constructor
    · intro n v hv
      exact alookup_append_left _ _ _ _ hv
    · intro n v hv
      cases ha : alookup n a.vars with
      | some w =>
        have hmem : (n, w) ∈ a.vars := alookup_mem _ _ _ ha
        have hP := (List.all_eq_true.mp hc) _ hmem
        rw [hv] at hP
        have hw : w = v := of_decide_eq_true hP
        subst hw
        exact alookup_append_left _ _ _ _ ha
      | none =>
        show alookup n (dsCombine a b).vars = some v
        unfold dsCombine
        rw [alookup_append_right _ _ _ ha,
          alookup_filter _ _ _ (fun x => by simp [ha]), hv]
  · rw [merge2, if_neg hc] at h
    cases h

theorem alookup_map_combine (bco : List (String × List Int))
    (l : List (String × List Int)) (n : String) :
    alookup n (l.map (fun nv =>
      match alookup nv.1 bco with
      | some w => (nv.1, coordUnion nv.2 w)
      | none => nv)) =
    (alookup n l).map (fun v =>
      match alookup n bco with
      | some w => coordUnion v w
      | none => v) := by
  induction l with
  | nil => rfl
  | cons hd tl ih =>
    obtain ⟨k, v0⟩ := hd
    by_cases hk : k = n
    · subst hk
      cases hb : alookup k bco <;> simp [alookup, hb]
    · cases hb : alookup k bco <;> simp [alookup, hk, hb, ih]

theorem merge2_ok_coord_sub (a b m : DS) (h : merge2 a b = .ok m) :
    (∀ n v, alookup n a.coords = some v →
      ∃ u, alookup n m.coords = some u ∧ ∀ x ∈ v, x ∈ u) ∧
    (∀ n v, alookup n b.coords = some v →
      ∃ u, alookup n m.coords = some u ∧ ∀ x ∈ v, x ∈ u) := by
  by_cases hc : compatible a b
  · rw [merge2, if_pos hc] at h
    obtain rfl : dsCombine a b = m := by simpa using h
    constructor
    · intro n v hv
      cases hb : alookup n b.coords with
      | some w =>
        have hmap : alookup n (a.coords.map (fun nv =>
            match alookup nv.1 b.coords with
            | some w => (nv.1, coordUnion nv.2 w)
            | none => nv)) = some (coordUnion v w) := by
          rw [alookup_map_combine, hv, hb]
          rfl
        refine ⟨coordUnion v w, alookup_append_left _ _ _ _ hmap, ?_⟩
        intro x hx
        exact List.mem_append_left _ hx
      | none =>
        have hmap : alookup n (a.coords.map (fun nv =>
            match alookup nv.1 b.coords with
            | some w => (nv.1, coordUnion nv.2 w)
            | none => nv)) = some v := by
          rw [alookup_map_combine, hv, hb]
          rfl
        exact ⟨v, alookup_append_left _ _ _ _ hmap, fun x hx => hx⟩
    · intro n v hv
      cases ha : alookup n a.coords with
      | some w =>
        have hmap : alookup n (a.coords.map (fun nv =>
            match alookup nv.1 b.coords with
            | some w => (nv.1, coordUnion nv.2 w)
            | none => nv)) = some (coordUnion w v) := by
          rw [alookup_map_combine, ha, hv]
          rfl
        refine ⟨coordUnion w v, alookup_append_left _ _ _ _ hmap, ?_⟩
        intro x hx
        by_cases hxw : x ∈ w
        · exact List.mem_append_left _ hxw
        · refine List.mem_append_right _ ?_
          rw [List.mem_filter]
          exact ⟨hx, by simp [hxw]⟩
      | none =>
        have hmap : alookup n (a.coords.map (fun nv =>
            match alookup nv.1 b.coords with
            | some w => (nv.1, coordUnion nv.2 w)
            | none => nv)) = none := by
          rw [alookup_map_combine, ha]
          rfl
        have hres : alookup n (dsCombine a b).coords = some v := by
          show alookup n (_ ++ _) = some v
          rw [alookup_append_right _ _ _ hmap,
            alookup_filter _ _ _ (fun x => by simp [ha]), hv]
        exact ⟨v, hres, fun x hx => hx⟩
  · rw [merge2, if_neg hc] at h
    cases h

theorem mergeFold_error_eq (l : List DS) (acc : DS) (e : Err)
    (h : mergeFold acc l = .error e) : e = .mergeConflict := by
  induction l generalizing acc with
  | nil => simp [mergeFold] at h
  | cons x xs ih =>
    unfold mergeFold at h
    cases hm : merge2 acc x with
    | error e1 =>
      rw [hm] at h
      by_cases hc : compatible acc x
      · rw [merge2, if_pos hc] at hm; cases hm
      · rw [merge2, if_neg hc] at hm
        cases hm
        cases h
        rfl
    | ok m1 =>
      rw [hm] at h
      exact ih m1 h

theorem mergeFold_ok_varlookup (l : List DS) (acc m : DS) (h : mergeFold acc l = .ok m) :
    (∀ n v, alookup n acc.vars = some v → alookup n m.vars = some v) ∧
    ∀ ds ∈ l, ∀ n v, alookup n ds.vars = some v → alookup n m.vars = some v := by
  induction l generalizing acc with
  | nil =>
    simp only [mergeFold, Except.ok.injEq] at h
    subst h
    exact ⟨fun n v hv => hv, by simp⟩
  | cons x xs ih =>
    unfold mergeFold at h
    cases hm : merge2 acc x with
    | error e1 => rw [hm] at h; cases h
    | ok m1 =>
      rw [hm] at h
      obtain ⟨hacc1, hx1⟩ := merge2_ok_varlookup acc x m1 hm
      obtain ⟨hacc2, hmem2⟩ := ih m1 h
      refine ⟨fun n v hv => hacc2 n v (hacc1 n v hv), ?_⟩
      intro ds hds n v hv
      rcases List.mem_cons.mp hds with rfl | hds1
      · exact hacc2 n v (hx1 n v hv)
      · exact hmem2 ds hds1 n v hv

theorem mergeFold_ok_coord_sub (l : List DS) (acc m : DS)
    (h : mergeFold acc l = .ok m) :
    (∀ n v, alookup n acc.coords = some v →
      ∃ u, alookup n m.coords = some u ∧ ∀ x ∈ v, x ∈ u) ∧
    ∀ ds ∈ l, ∀ n v, alookup n ds.coords = some v →
      ∃ u, alookup n m.coords = some u ∧ ∀ x ∈ v, x ∈ u := by
  induction l generalizing acc with
  | nil =>
    simp only [mergeFold, Except.ok.injEq] at h
    subst h
    exact ⟨fun n v hv => ⟨v, hv, fun x hx => hx⟩, by simp⟩
  | cons x xs ih =>
    unfold mergeFold at h
    cases hm : merge2 acc x with
    | error e1 => rw [hm] at h; cases h
    | ok m1 =>
      rw [hm] at h
      obtain ⟨hacc1, hx1⟩ := merge2_ok_coord_sub acc x m1 hm
      obtain ⟨hacc2, hmem2⟩ := ih m1 h
      constructor
      · intro n v hv
        obtain ⟨u1, hu1, hs1⟩ := hacc1 n v hv
        obtain ⟨u, hu, hs2⟩ := hacc2 n u1 hu1
        exact ⟨u, hu, fun x hx => hs2 x (hs1 x hx)⟩
      · intro ds hds n v hv
        rcases List.mem_cons.mp hds with rfl | hds1
        · obtain ⟨u1, hu1, hs1⟩ := hx1 n v hv
          obtain ⟨u, hu, hs2⟩ := hacc2 n u1 hu1
          exact ⟨u, hu, fun x hx => hs2 x (hs1 x hx)⟩
        · exact hmem2 ds hds1 n v hv

theorem mergeAll_var_conflict (l : List DS) (a b : DS) (ha : a ∈ l) (hb : b ∈ l)
    (n : String) (va vb : Int) (hva : alookup n a.vars = some va)
    (hvb : alookup n b.vars = some vb) (hne : va ≠ vb) :
    mergeAll l = .error .mergeConflict := by
  cases l with
  | nil => cases ha
  | cons x xs =>
    show mergeFold x xs = .error .mergeConflict
    cases hm : mergeFold x xs with
    | ok m =>
      exfalso
      obtain ⟨hacc, hmem⟩ := mergeFold_ok_varlookup xs x m hm
      have h1 : alookup n m.vars = some va := by
        rcases List.mem_cons.mp ha with rfl | h1
        · exact hacc n va hva
        · exact hmem a h1 n va hva
      have h2 : alookup n m.vars = some vb := by
        rcases List.mem_cons.mp hb with rfl | h2
        · exact hacc n vb hvb
        · exact hmem b h2 n vb hvb
      rw [h1] at h2
      exact hne (Option.some.inj h2)
    | error e =>
      have he := mergeFold_error_eq xs x e hm
      subst he
      rfl

theorem mergeAll_ok_coord_sub (l : List DS) (m : DS) (h : mergeAll l = .ok m) :
    ∀ ds ∈ l, ∀ n v, alookup n ds.coords = some v →
      ∃ u, alookup n m.coords = some u ∧ ∀ x ∈ v, x ∈ u := by
  cases l with
  | nil => cases h
  | cons x xs =>
    have h1 : mergeFold x xs = .ok m := h
    obtain ⟨hacc, hmem⟩ := mergeFold_ok_coord_sub xs x m h1
    intro ds hds
    rcases List.mem_cons.mp hds with rfl | hds1
    · exact hacc
    · exact hmem ds hds1

theorem fsLookup_cons (e : FsPath × DS) (l : Dir) (p : FsPath) :
    fsLookup (e :: l) p = if e.1 = p then some e.2 else fsLookup l p := by
  unfold fsLookup
  rw [List.find?_cons]
  by_cases h : e.1 = p <;> simp [h]

theorem fsLookup_concat_self (l : Dir) (p : FsPath) (ds : DS)
    (h : ∀ e ∈ l, e.1 ≠ p) : fsLookup (l ++ [(p, ds)]) p = some ds := by
  induction l with
  | nil => simp [fsLookup_cons]
  | cons e tl ih =>
    rw [List.cons_append, fsLookup_cons, if_neg (h e (by simp))]
    exact ih (fun e2 he2 => h e2 (List.mem_cons_of_mem _ he2))

theorem fsLookup_write_self (d : Dir) (p : FsPath) (ds : DS) :
    fsLookup (fsWrite d p ds) p = some ds := by
  unfold fsWrite
  apply fsLookup_concat_self
  intro e he
  have := (List.mem_filter.mp he).2
  simpa using this

theorem fsLookup_filter (d : Dir) (Q : FsPath × DS → Bool) (p : FsPath)
    (hQ : ∀ ds, Q (p, ds) = true) : fsLookup (d.filter Q) p = fsLookup d p := by
  induction d with
  | nil => rfl
  | cons e tl ih =>
    obtain ⟨q, w⟩ := e
    by_cases hq : q = p
    · subst hq
      rw [List.filter_cons, hQ w]
      simp [fsLookup_cons, ih]
    · rw [List.filter_cons]
      cases hQe : Q (q, w) <;> simp [fsLookup_cons, hq, ih]

theorem fsLookup_eraseAll_of_not_mem (d : Dir) (ps : List FsPath) (p : FsPath)
    (h : p ∉ ps) : fsLookup (fsEraseAll d ps) p = fsLookup d p := by
  unfold fsEraseAll
  exact fsLookup_filter d _ p (fun ds => by simp [h])

theorem runTasks_error_of_mem (yms : List YM) (ts : List (Nat × Task)) (d : Dir)
    (h : ∃ p ∈ ts, taskError yms p.1 p.2 ≠ none) :
    ∃ e, runTasks yms ts d = .error e ∧
      ∃ p ∈ ts, taskError yms p.1 p.2 = some e := by
  induction ts generalizing d with
  | nil => simp at h
  | cons hd tl ih =>
    obtain ⟨i, t⟩ := hd
    cases hdt : cutout_do_task t true (datasetfn_with_id yms i) d with
    | error e =>
      refine ⟨e, by simp [runTasks, hdt], (i, t), by simp, ?_⟩
      unfold taskError
      rw [(cutout_do_task_error_iff t _ d [] e).mp hdt]
    | ok pr =>
      obtain ⟨d1, rest⟩ := pr
      have hnone : taskError yms i t = none := by
        unfold taskError
        cases hdt0 : cutout_do_task t true (datasetfn_with_id yms i) [] with
        | error e0 =>
          have := (cutout_do_task_error_iff t _ [] d e0).mp hdt0
          rw [hdt] at this; cases this
        | ok pr0 => rfl
      have htl : ∃ p ∈ tl, taskError yms p.1 p.2 ≠ none := by
        obtain ⟨p, hp, hpe⟩ := h
        rcases List.mem_cons.mp hp with rfl | hp1
        · exact absurd hnone hpe
        · exact ⟨p, hp1, hpe⟩
      obtain ⟨e, herr, p, hp, hpe⟩ := ih d1 htl
      exact ⟨e, by simp [runTasks, hdt, herr], p, List.mem_cons_of_mem _ hp, hpe⟩

theorem fsWrite_mem (d : Dir) (p : FsPath) (ds : DS) (e : FsPath × DS) :
    e ∈ fsWrite d p ds ↔ (e ∈ d ∧ e.1 ≠ p) ∨ e = (p, ds) := by
  unfold fsWrite
  simp [List.mem_filter]

theorem fsEraseAll_mem (d : Dir) (ps : List FsPath) (e : FsPath × DS) :
    e ∈ fsEraseAll d ps ↔ e ∈ d ∧ e.1 ∉ ps := by
  unfold fsEraseAll
  simp [List.mem_filter]

theorem fsWrite_keys_nodup (d : Dir) (p : FsPath) (ds : DS)
    (h : (d.map Prod.fst).Nodup) : ((fsWrite d p ds).map Prod.fst).Nodup := by
  unfold fsWrite
  rw [List.map_append]
  refine List.Nodup.append ?_ (by simp) ?_
  · exact List.Nodup.sublist (List.Sublist.map _ (List.filter_sublist _)) h
  · intro a ha hb
    simp only [List.map_cons, List.map_nil, List.mem_singleton] at hb
    subst hb
    obtain ⟨e, he, rfl⟩ := List.mem_map.mp ha
    have := (List.mem_filter.mp he).2
    simp at this

theorem fsEraseAll_keys_nodup (d : Dir) (ps : List FsPath)
    (h : (d.map Prod.fst).Nodup) : ((fsEraseAll d ps).map Prod.fst).Nodup :=
  List.Nodup.sublist (List.Sublist.map _ (List.filter_sublist _)) h

theorem writeResults_ok_mem (dfns : YM → Option FsPath) (l : List (YM × Option DS)) :
    ∀ (d d1 : Dir), writeResults dfns l d = .ok d1 →
    ∀ e ∈ d1, e ∈ d ∨ ∃ ym, dfns ym = some e.1 := by
  induction l with
  | nil =>
    intro d d1 h e he
    simp only [writeResults, Except.ok.injEq] at h
    subst h
    exact Or.inl he
  | cons hd tl ih =>
    intro d d1 h e he
    obtain ⟨ym, ods⟩ := hd
    cases ods with
    | none =>
      rw [writeResults] at h
      exact ih d d1 h e he
    | some ds =>
      rw [writeResults] at h
      cases hdf : dfns ym with
      | none => rw [hdf] at h; cases h
      | some p =>
        rw [hdf] at h
        rcases ih (fsWrite d p ds) d1 h e he with hin | hex
        · rcases (fsWrite_mem d p ds e).mp hin with ⟨hin2, _⟩ | rfl
          · exact Or.inl hin2
          · exact Or.inr ⟨ym, hdf⟩
        · exact Or.inr hex

theorem writeResults_keys_nodup (dfns : YM → Option FsPath)
    (l : List (YM × Option DS)) :
    ∀ (d d1 : Dir), writeResults dfns l d = .ok d1 →
    (d.map Prod.fst).Nodup → (d1.map Prod.fst).Nodup := by
  induction l with
  | nil =>
    intro d d1 h hn
    simp only [writeResults, Except.ok.injEq] at h
    subst h
    exact hn
  | cons hd tl ih =>
    intro d d1 h hn
    obtain ⟨ym, ods⟩ := hd
    cases ods with
    | none =>
      rw [writeResults] at h
      exact ih d d1 h hn
    | some ds =>
      rw [writeResults] at h
      cases hdf : dfns ym with
      | none => rw [hdf] at h; cases h
      | some p =>
        rw [hdf] at h
        exact ih (fsWrite d p ds) d1 h (fsWrite_keys_nodup d p ds hn)

theorem cutout_do_task_write_ok (t : Task) (dfns : YM → Option FsPath)
    (d d1 : Dir) (rest : Option (List (YM × Option DS)))
    (h : cutout_do_task t true dfns d = .ok (d1, rest)) :
    ∃ od, t.run = .ok od ∧ writeResults dfns (od.getD []) d = .ok d1 := by
  unfold cutout_do_task at h
  cases hrun : t.run with
  | error e => rw [hrun] at h; cases h
  | ok od =>
    rw [hrun] at h
    simp only [if_pos rfl] at h
    cases hw : writeResults dfns (od.getD []) d with
    | error e => rw [hw] at h; cases h
    | ok dd =>
      rw [hw] at h
      refine ⟨od, rfl, ?_⟩
      obtain ⟨h1, _⟩ : dd = d1 ∧ none = rest := by simpa using h
      rw [hw, h1]

theorem runTasks_ok_mem (yms : List YM) (ts : List (Nat × Task)) :
    ∀ (d d1 : Dir), runTasks yms ts d = .ok d1 →
    ∀ e ∈ d1, e ∈ d ∨ ∃ ym i, ym ∈ yms ∧ e.1 = FsPath.staging ym i := by
  induction ts with
  | nil =>
    intro d d1 h e he
    simp only [runTasks, Except.ok.injEq] at h
    subst h
    exact Or.inl he
  | cons hd tl ih =>
    intro d d1 h e he
    obtain ⟨i, t⟩ := hd
    unfold runTasks at h
    cases hdt : cutout_do_task t true (datasetfn_with_id yms i) d with
    | error e1 => rw [hdt] at h; cases h
    | ok pr =>
      obtain ⟨dm, rest⟩ := pr
      rw [hdt] at h
      rcases ih dm d1 h e he with hin | hst
      · obtain ⟨od, _, hw⟩ := cutout_do_task_write_ok t _ d dm rest hdt
        rcases writeResults_ok_mem _ _ d dm hw e hin with hin2 | ⟨ym, hym⟩
        · exact Or.inl hin2
        · unfold datasetfn_with_id at hym
          by_cases hmem : ym ∈ yms
          · rw [if_pos hmem] at hym
            exact Or.inr ⟨ym, i, hmem, (Option.some.inj hym).symm⟩
          · rw [if_neg hmem] at hym; cases hym
      · exact Or.inr hst

theorem runTasks_keys_nodup (yms : List YM) (ts : List (Nat × Task)) :
    ∀ (d d1 : Dir), runTasks yms ts d = .ok d1 →
    (d.map Prod.fst).Nodup → (d1.map Prod.fst).Nodup := by
  induction ts with
  | nil =>
    intro d d1 h hn
    simp only [runTasks, Except.ok.injEq] at h
    subst h
    exact hn
  | cons hd tl ih =>
    intro d d1 h hn
    obtain ⟨i, t⟩ := hd
    unfold runTasks at h
    cases hdt : cutout_do_task t true (datasetfn_with_id yms i) d with
    | error e1 => rw [hdt] at h; cases h
    | ok pr =>
      obtain ⟨dm, rest⟩ := pr
      rw [hdt] at h
      obtain ⟨od, _, hw⟩ := cutout_do_task_write_ok t _ d dm rest hdt
      exact ih dm d1 h (writeResults_keys_nodup _ _ d dm hw hn)

theorem isStagingOf_true_iff (ym : YM) (p : FsPath) :
    isStagingOf ym p = true ↔ ∃ i, p = FsPath.staging ym i := by
  cases p with
  | meta => simp [isStagingOf]
  | final ym2 => simp [isStagingOf]
  | staging ym2 i =>
    simp only [isStagingOf, decide_eq_true_eq, FsPath.staging.injEq]
    constructor
    · rintro rfl; exact ⟨i, rfl, rfl⟩
    · rintro ⟨i2, rfl, rfl⟩; rfl

theorem globStaging_mem (d : Dir) (ym : YM) (e : FsPath × DS) :
    e ∈ globStaging d ym ↔ e ∈ d ∧ isStagingOf ym e.1 = true := by
  unfold globStaging
  simp [List.mem_filter]

theorem globStaging_key (d : Dir) (ym : YM) (e : FsPath × DS)
    (he : e ∈ globStaging d ym) : ∃ i, e.1 = FsPath.staging ym i :=
  (isStagingOf_true_iff ym e.1).mp ((globStaging_mem d ym e).mp he).2

theorem mergeWrite_ok_mem (g : Bool) (hv : Int) (ym : YM) (d d1 fns : Dir)
    (hf : fns = globStaging d ym) (h : mergeWrite g hv ym d fns = .ok d1) :
    (∀ e ∈ d1, (e ∈ d ∧ isStagingOf ym e.1 = false) ∨ e.1 = FsPath.final ym) ∧
    (∃ ds0, (FsPath.final ym, ds0) ∈ d1) := by
  unfold mergeWrite at h
  cases hma : mergeAll (fns.map (·.2)) with
  | error e1 => rw [hma] at h; cases h
  | ok m =>
    rw [hma] at h
    simp only [Except.ok.injEq] at h
    subst h
    constructor
    · intro e he
      rw [fsEraseAll_mem] at he
      obtain ⟨hw, hnk⟩ := he
      rcases (fsWrite_mem _ _ _ _).mp hw with ⟨hin, hne⟩ | rfl
      · cases hb : isStagingOf ym e.1 with
        | false => exact Or.inl ⟨hin, rfl⟩
        | true =>
          exfalso
          have hmem : e ∈ globStaging d ym := (globStaging_mem _ _ _).mpr ⟨hin, hb⟩
          rw [← hf] at hmem
          exact hnk (List.mem_map.mpr ⟨e, hmem, rfl⟩)
      · exact Or.inr rfl
    · refine ⟨(if g then setVar m "height" hv else m), ?_⟩
      rw [fsEraseAll_mem]
      refine ⟨(fsWrite_mem _ _ _ _).mpr (Or.inr rfl), ?_⟩
      intro hk
      obtain ⟨e, he, hke⟩ := List.mem_map.mp hk
      rw [hf] at he
      obtain ⟨i, hi⟩ := globStaging_key d ym e he
      rw [hi] at hke
      cases hke

theorem mergePeriod_ok_mem (g : Bool) (hv : Int) (ym : YM) (d d1 : Dir)
    (h : mergePeriod g hv ym d = .ok d1) :
    (∀ e ∈ d1, (e ∈ d ∧ isStagingOf ym e.1 = false) ∨ e.1 = FsPath.final ym) ∧
    (∃ ds0, (FsPath.final ym, ds0) ∈ d1) := by
  unfold mergePeriod at h
  cases hf : globStaging d ym with
  | nil =>
    rw [hf] at h
    exact mergeWrite_ok_mem g hv ym d d1 [] hf.symm h
  | cons e0 tl =>
    cases tl with
    | cons e1 r2 =>
      rw [hf] at h
      exact mergeWrite_ok_mem g hv ym d d1 _ hf.symm h
    | nil =>
      obtain ⟨p, ds⟩ := e0
      rw [hf] at h
      simp only [mergeGlobbed] at h
      cases g with
      | true =>
        rw [if_pos rfl] at h
        exact mergeWrite_ok_mem true hv ym d d1 _ hf.symm h
      | false =>
        rw [if_neg (by simp)] at h
        simp only [Except.ok.injEq] at h
        subst h
        constructor
        · intro e he
          rcases (fsWrite_mem _ _ _ _).mp he with ⟨hin, hne⟩ | rfl
          · rw [fsEraseAll_mem] at hin
            obtain ⟨hin2, hnp⟩ := hin
            cases hb : isStagingOf ym e.1 with
            | false => exact Or.inl ⟨hin2, rfl⟩
            | true =>
              exfalso
              have hmem : e ∈ globStaging d ym := (globStaging_mem _ _ _).mpr ⟨hin2, hb⟩
              rw [hf] at hmem
              simp only [List.mem_singleton] at hmem
              subst hmem
              exact hnp (by simp)
          · exact Or.inr rfl
        · exact ⟨ds, (fsWrite_mem _ _ _ _).mpr (Or.inr rfl)⟩

theorem mergeWrite_keys_nodup (g : Bool) (hv : Int) (ym : YM) (d d1 fns : Dir)
    (h : mergeWrite g hv ym d fns = .ok d1)
    (hn : (d.map Prod.fst).Nodup) : (d1.map Prod.fst).Nodup := by
  unfold mergeWrite at h
  cases hma : mergeAll (fns.map (·.2)) with
  | error e1 => rw [hma] at h; cases h
  | ok m =>
    rw [hma] at h
    simp only [Except.ok.injEq] at h
    subst h
    exact fsEraseAll_keys_nodup _ _ (fsWrite_keys_nodup _ _ _ hn)

theorem mergePeriod_keys_nodup (g : Bool) (hv : Int) (ym : YM) (d d1 : Dir)
    (h : mergePeriod g hv ym d = .ok d1)
    (hn : (d.map Prod.fst).Nodup) : (d1.map Prod.fst).Nodup := by
  unfold mergePeriod at h
  cases hf : globStaging d ym with
  | nil =>
    rw [hf] at h
    exact mergeWrite_keys_nodup g hv ym d d1 [] h hn
  | cons e0 tl =>
    cases tl with
    | cons e1 r2 =>
      rw [hf] at h
      exact mergeWrite_keys_nodup g hv ym d d1 _ h hn
    | nil =>
      obtain ⟨p, ds⟩ := e0
      rw [hf] at h
      simp only [mergeGlobbed] at h
      cases g with
      | true =>
        rw [if_pos rfl] at h
        exact mergeWrite_keys_nodup true hv ym d d1 _ h hn
      | false =>
        rw [if_neg (by simp)] at h
        simp only [Except.ok.injEq] at h
        subst h
        exact fsWrite_keys_nodup _ _ _ (fsEraseAll_keys_nodup _ _ hn)

theorem mergeWrite_retains_final (g : Bool) (hv : Int) (ym2 ym : YM) (ds0 : DS)
    (d d1 fns : Dir) (hf : fns = globStaging d ym2)
    (h : mergeWrite g hv ym2 d fns = .ok d1) (hne : ym ≠ ym2)
    (hin : (FsPath.final ym, ds0) ∈ d) : (FsPath.final ym, ds0) ∈ d1 := by
  unfold mergeWrite at h
  cases hma : mergeAll (fns.map (·.2)) with
  | error e1 => rw [hma] at h; cases h
  | ok m =>
    rw [hma] at h
    simp only [Except.ok.injEq] at h
    subst h
    rw [fsEraseAll_mem]
    constructor
    · exact (fsWrite_mem _ _ _ _).mpr (Or.inl ⟨hin, by simp [hne]⟩)
    · intro hk
      obtain ⟨e, he, hke⟩ := List.mem_map.mp hk
      rw [hf] at he
      obtain ⟨i, hi⟩ := globStaging_key d ym2 e he
      rw [hi] at hke
      cases hke

theorem mergePeriod_retains_final (g : Bool) (hv : Int) (ym2 ym : YM) (ds0 : DS)
    (d d1 : Dir) (h : mergePeriod g hv ym2 d = .ok d1) (hne : ym ≠ ym2)
    (hin : (FsPath.final ym, ds0) ∈ d) : (FsPath.final ym, ds0) ∈ d1 := by
  unfold mergePeriod at h
  cases hf : globStaging d ym2 with
  | nil =>
    rw [hf] at h
    exact mergeWrite_retains_final g hv ym2 ym ds0 d d1 [] hf.symm h hne hin
  | cons e0 tl =>
    cases tl with
    | cons e1 r2 =>
      rw [hf] at h
      exact mergeWrite_retains_final g hv ym2 ym ds0 d d1 _ hf.symm h hne hin
    | nil =>
      obtain ⟨p, ds⟩ := e0
      rw [hf] at h
      simp only [mergeGlobbed] at h
      cases g with
      | true =>
        rw [if_pos rfl] at h
        exact mergeWrite_retains_final true hv ym2 ym ds0 d d1 _ hf.symm h hne hin
      | false =>
        rw [if_neg (by simp)] at h
        simp only [Except.ok.injEq] at h
        subst h
        refine (fsWrite_mem _ _ _ _).mpr (Or.inl ⟨?_, by simp [hne]⟩)
        rw [fsEraseAll_mem]
        refine ⟨hin, ?_⟩
        have hp : ∃ i, p = FsPath.staging ym2 i := by
          have : (p, ds) ∈ globStaging d ym2 := by rw [hf]; simp
          exact globStaging_key d ym2 (p, ds) this
        obtain ⟨i, rfl⟩ := hp
        simp

theorem mergePeriod_of_no_staging (g : Bool) (hv : Int) (ym : YM) (d : Dir)
    (h : globStaging d ym = []) :
    mergePeriod g hv ym d = .error .emptyMerge := by
  unfold mergePeriod
  rw [h]
  rfl

theorem mergeLoop_preserves (g : Bool) (hv : Int) (ym : YM) :
    ∀ (yms : List YM) (d d1 : Dir), mergeLoop g hv yms d = (d1, none) →
    (∀ e ∈ d, isStagingOf ym e.1 = false) →
    (∃ ds0, (FsPath.final ym, ds0) ∈ d) →
    (∀ e ∈ d1, isStagingOf ym e.1 = false) ∧
      ∃ ds0, (FsPath.final ym, ds0) ∈ d1 := by
  intro yms
  induction yms with
  | nil =>
    intro d d1 h hns hf
    simp only [mergeLoop, Prod.mk.injEq] at h
    obtain ⟨rfl, -⟩ := h
    exact ⟨hns, hf⟩
  | cons ym2 rest ih =>
    intro d d1 h hns hf
    unfold mergeLoop at h
    cases hmp : mergePeriod g hv ym2 d with
    | error e1 => rw [hmp] at h; simp at h
    | ok dm =>
      rw [hmp] at h
      by_cases heq : ym2 = ym
      · subst heq
        have hnil : globStaging d ym2 = [] := by
          unfold globStaging
          rw [List.filter_eq_nil_iff]
          intro e he
          simp [hns e he]
        rw [mergePeriod_of_no_staging g hv ym2 d hnil] at hmp
        cases hmp
      · refine ih dm d1 h ?_ ?_
        · intro e he
          rcases (mergePeriod_ok_mem g hv ym2 d dm hmp).1 e he with ⟨hin, _⟩ | hfin
          · exact hns e hin
          · rw [hfin]; rfl
        · obtain ⟨ds0, hds0⟩ := hf
          exact ⟨ds0, mergePeriod_retains_final g hv ym2 ym ds0 d dm hmp
            (fun hc => heq hc.symm) hds0⟩

theorem mergeLoop_keys_nodup (g : Bool) (hv : Int) :
    ∀ (yms : List YM) (d d1 : Dir), mergeLoop g hv yms d = (d1, none) →
    (d.map Prod.fst).Nodup → (d1.map Prod.fst).Nodup := by
  intro yms
  induction yms with
  | nil =>
    intro d d1 h hn
    simp only [mergeLoop, Prod.mk.injEq] at h
    obtain ⟨rfl, -⟩ := h
    exact hn
  | cons ym2 rest ih =>
    intro d d1 h hn
    unfold mergeLoop at h
    cases hmp : mergePeriod g hv ym2 d with
    | error e1 => rw [hmp] at h; simp at h
    | ok dm =>
      rw [hmp] at h
      exact ih dm d1 h (mergePeriod_keys_nodup g hv ym2 d dm hmp hn)

theorem mergeLoop_ok_main (g : Bool) (hv : Int) :
    ∀ (yms : List YM) (d d1 : Dir), mergeLoop g hv yms d = (d1, none) →
    (∀ e ∈ d1, e ∈ d ∨ ∃ ym ∈ yms, e.1 = FsPath.final ym) ∧
    (∀ ym ∈ yms, (∀ e ∈ d1, isStagingOf ym e.1 = false) ∧
      ∃ ds0, (FsPath.final ym, ds0) ∈ d1) := by
  intro yms
  induction yms with
  | nil =>
    intro d d1 h
    simp only [mergeLoop, Prod.mk.injEq] at h
    obtain ⟨rfl, -⟩ := h
    exact ⟨fun e he => Or.inl he, by simp⟩
  | cons ym2 rest ih =>
    intro d d1 h
    unfold mergeLoop at h
    cases hmp : mergePeriod g hv ym2 d with
    | error e1 => rw [hmp] at h; simp at h
    | ok dm =>
      rw [hmp] at h
      obtain ⟨horig, hall⟩ := ih dm d1 h
      obtain ⟨hmem, hfin⟩ := mergePeriod_ok_mem g hv ym2 d dm hmp
      constructor
      · intro e he
        rcases horig e he with hin | ⟨ym, hym, hf⟩
        · rcases hmem e hin with ⟨hin2, _⟩ | hf2
          · exact Or.inl hin2
          · exact Or.inr ⟨ym2, List.mem_cons_self _ _, hf2⟩
        · exact Or.inr ⟨ym, List.mem_cons_of_mem _ hym, hf⟩
      · intro ym hym
        rcases List.mem_cons.mp hym with rfl | hym2
        · refine mergeLoop_preserves g hv ym rest dm d1 h ?_ hfin
          intro e he
          rcases hmem e he with ⟨_, hstg⟩ | hf2
          · exact hstg
          · rw [hf2]; rfl
        · exact hall ym hym2

theorem daysInMonth_pos (y m : Nat) : 0 < daysInMonth y m := by
  unfold daysInMonth
  split_ifs <;> omega

theorem monthOfIdx_monthIdx (y m : Nat) (h1 : 1 ≤ m) (h2 : m ≤ 12) :
    monthOfIdx (monthIdx y m) = (y, m) := by
  unfold monthOfIdx monthIdx
  simp only [Prod.mk.injEq]
  omega

theorem monthIdx_monthOfIdx (n : Nat) :
    monthIdx (monthOfIdx n).1 (monthOfIdx n).2 = n := by
  unfold monthIdx monthOfIdx
  simp only []
  omega

theorem monthOfIdx_injective : Function.Injective monthOfIdx := by
  intro a b h
  have ha := monthIdx_monthOfIdx a
  have hb := monthIdx_monthOfIdx b
  rw [h] at ha
  rw [hb] at ha
  exact ha.symm

theorem monthOfIdx_snd_bounds (n : Nat) :
    1 ≤ (monthOfIdx n).2 ∧ (monthOfIdx n).2 ≤ 12 := by
  unfold monthOfIdx
  simp only []
  omega

theorem mem_daysOfMonth (y m : Nat) (d : Date) :
    d ∈ daysOfMonth y m ↔
      d.year = y ∧ d.month = m ∧ 1 ≤ d.day ∧ d.day ≤ daysInMonth y m := by
  unfold daysOfMonth
  simp only [List.mem_map, List.mem_range]
  constructor
  · rintro ⟨i, hi, rfl⟩
    exact ⟨rfl, rfl, by simp, by simp; omega⟩
  · rintro ⟨hy, hm, hd1, hd2⟩
    refine ⟨d.day - 1, by omega, ?_⟩
    obtain ⟨dy, dm, dd⟩ := d
    simp only [Date.mk.injEq] at hy hm ⊢
    simp only [] at hd1 hd2
    exact ⟨hy.symm, hm.symm, by omega⟩

theorem nodup_daysOfMonth (y m : Nat) : (daysOfMonth y m).Nodup := by
  unfold daysOfMonth
  refine List.Nodup.map ?_ (List.nodup_range _)
  intro a b h
  simp only [Date.mk.injEq] at h
  omega

theorem getLast?_daysOfMonth (y m : Nat) :
    (daysOfMonth y m).getLast? = some ⟨y, m, daysInMonth y m⟩ := by
  unfold daysOfMonth
  obtain ⟨k, hk⟩ : ∃ k, daysInMonth y m = k + 1 :=
    ⟨daysInMonth y m - 1, by have := daysInMonth_pos y m; omega⟩
  rw [hk, List.range_succ, List.map_append]
  simp only [List.map_cons, List.map_nil]
  rw [List.getLast?_concat]

theorem head?_daysOfMonth (y m : Nat) :
    (daysOfMonth y m).head? = some ⟨y, m, 1⟩ := by
  unfold daysOfMonth
  obtain ⟨k, hk⟩ : ∃ k, daysInMonth y m = k + 1 :=
    ⟨daysInMonth y m - 1, by have := daysInMonth_pos y m; omega⟩
  rw [hk, List.range_succ_eq_map]
  rfl

theorem mem_monthRange (ys ms ye me y m : Nat) :
    (y, m) ∈ monthRange ys ms ye me ↔
      1 ≤ m ∧ m ≤ 12 ∧ monthIdx ys ms ≤ monthIdx y m ∧
        monthIdx y m ≤ monthIdx ye me := by
  unfold monthRange
  simp only [List.mem_map, List.mem_range']
  constructor
  · rintro ⟨n, ⟨i, hi, rfl⟩, heq⟩
    have hb := monthOfIdx_snd_bounds (monthIdx ys ms + 1 * i)
    have hn := monthIdx_monthOfIdx (monthIdx ys ms + 1 * i)
    rw [heq] at hb hn
    simp only [] at hb hn
    refine ⟨hb.1, hb.2, ?_, ?_⟩ <;> omega
  · rintro ⟨h1, h2, h3, h4⟩
    refine ⟨monthIdx y m, ⟨monthIdx y m - monthIdx ys ms, by omega, by omega⟩,
      monthOfIdx_monthIdx y m h1 h2⟩

theorem mem_dateRangeDaily (ys ms ye me : Nat) (d : Date) :
    d ∈ dateRangeDaily ys ms ye me ↔
      (1 ≤ d.month ∧ d.month ≤ 12 ∧ monthIdx ys ms ≤ monthIdx d.year d.month ∧
        monthIdx d.year d.month ≤ monthIdx ye me ∧
        1 ≤ d.day ∧ d.day ≤ daysInMonth d.year d.month) := by
  unfold dateRangeDaily
  simp only [List.mem_flatMap]
  constructor
  · rintro ⟨p, hp, hd⟩
    rw [mem_daysOfMonth] at hd
    obtain ⟨hy, hm, hd1, hd2⟩ := hd
    obtain ⟨p1, p2⟩ := p
    simp only [] at hy hm hd1 hd2
    subst hy
    subst hm
    rw [mem_monthRange] at hp
    exact ⟨hp.1, hp.2.1, hp.2.2.1, hp.2.2.2, hd1, hd2⟩
  · rintro ⟨h1, h2, h3, h4, h5, h6⟩
    refine ⟨(d.year, d.month), ?_, ?_⟩
    · rw [mem_monthRange]
      exact ⟨h1, h2, h3, h4⟩
    · rw [mem_daysOfMonth]
      exact ⟨rfl, rfl, h5, h6⟩

theorem nodup_dateRangeDaily (ys ms ye me : Nat) :
    (dateRangeDaily ys ms ye me).Nodup := by
  unfold dateRangeDaily
  rw [List.nodup_flatMap]
  refine ⟨fun p hp => nodup_daysOfMonth p.1 p.2, ?_⟩
  have hnd : (monthRange ys ms ye me).Nodup := by
    unfold monthRange
    exact List.Nodup.map monthOfIdx_injective (List.nodup_range' _ _)
  refine hnd.imp ?_
  intro p q hne
  intro d hdp hdq
  rw [mem_daysOfMonth] at hdp hdq
  exact hne (by
    obtain ⟨p1, p2⟩ := p
    obtain ⟨q1, q2⟩ := q
    simp only [] at hdp hdq
    simp [← hdp.1, ← hdp.2.1, ← hdq.1, ← hdq.2.1])

theorem flatMapMonths_getLast? (k : Nat) : ∀ s : Nat,
    (((List.range' s (k + 1)).map monthOfIdx).flatMap
        (fun p => daysOfMonth p.1 p.2)).getLast? =
      some ⟨(monthOfIdx (s + k)).1, (monthOfIdx (s + k)).2,
        daysInMonth (monthOfIdx (s + k)).1 (monthOfIdx (s + k)).2⟩ := by
  induction k with
  | zero =>
    intro s
    rw [List.range'_succ]
    simp only [List.range'_zero, List.map_cons, List.map_nil, List.flatMap_cons,
      List.flatMap_nil, List.append_nil, Nat.add_zero]
    exact getLast?_daysOfMonth _ _
  | succ k ih =>
    intro s
    rw [List.range'_succ]
    simp only [List.map_cons, List.flatMap_cons]
    rw [List.getLast?_append, ih (s + 1)]
    have hs : s + 1 + k = s + (k + 1) := by omega
    rw [hs]
    rfl

theorem head?_dateRangeDaily (ys ms ye me : Nat)
    (h1 : 1 ≤ ms) (h2 : ms ≤ 12) (hle : monthIdx ys ms ≤ monthIdx ye me) :
    (dateRangeDaily ys ms ye me).head? = some ⟨ys, ms, 1⟩ := by
  unfold dateRangeDaily monthRange
  have hcnt : monthIdx ye me + 1 - monthIdx ys ms =
      (monthIdx ye me - monthIdx ys ms) + 1 := by omega
  rw [hcnt, List.range'_succ]
  simp only [List.map_cons, List.flatMap_cons]
  rw [List.head?_append, monthOfIdx_monthIdx ys ms h1 h2]
  simp [head?_daysOfMonth]

theorem getLast?_dateRangeDaily (ys ms ye me : Nat)
    (h3 : 1 ≤ me) (h4 : me ≤ 12) (hle : monthIdx ys ms ≤ monthIdx ye me) :
    (dateRangeDaily ys ms ye me).getLast? = some ⟨ye, me, daysInMonth ye me⟩ := by
  unfold dateRangeDaily monthRange
  have hcnt : monthIdx ye me + 1 - monthIdx ys ms =
      (monthIdx ye me - monthIdx ys ms) + 1 := by omega
  rw [hcnt, flatMapMonths_getLast?]
  have hidx : monthIdx ys ms + (monthIdx ye me - monthIdx ys ms) =
      monthIdx ye me := by omega
  rw [hidx, monthOfIdx_monthIdx ye me h3 h4]

/-! ## Claim theorems -/

/-- C10: the latitude-direction normalization `_prepare_lat_direction` is
idempotent: for every direction flag and every slice, applying it twice
yields exactly the slice obtained by applying it once. -/
theorem prepare_lat_direction_idempotent (lat_direction : Bool) (ys : PySlice) :
    prepare_lat_direction lat_direction (prepare_lat_direction lat_direction ys) =
      prepare_lat_direction lat_direction ys := by
  unfold prepare_lat_direction
  cases lat_direction <;> cases ys <;> simp only [] <;> split_ifs <;>
    simp_all <;> omega

/-- C9: a partial result whose dataset is `None` is skipped by the task
executor in write mode without raising: running `cutout_do_task` on a result
list containing a `(ym, None)` entry is exactly running it on the list with
that entry removed — no staging file is written for it and the remaining
results are still processed. -/
theorem cutout_do_task_skips_none (pre post : List (YM × Option DS)) (ym : YM)
    (dfns : YM → Option FsPath) (dir : Dir) :
    cutout_do_task ⟨.ok (some (pre ++ (ym, none) :: post))⟩ true dfns dir =
      cutout_do_task ⟨.ok (some (pre ++ post))⟩ true dfns dir := by
  simp [cutout_do_task, writeResults_skip_none]

/-- C5: the single-period query fails with `InvariantViolationError` (an
`assert` failure in the source) whenever the series' task-generation
function yields anything other than exactly one task, or that task completes
with anything other than exactly one result carrying the requested
period. -/
theorem produce_specific_invariant_violation (c : Cutout) (ym : YM) (dir : Dir)
    (h : (c.tasks_func [ym]).length ≠ 1 ∨
      ∃ t od, c.tasks_func [ym] = [t] ∧ t.run = .ok od ∧
        ∀ d, od.getD [] ≠ [(ym, d)]) :
    cutout_produce_specific_dataseries c ym dir = .error .invariantViolation := by
  unfold cutout_produce_specific_dataseries
  rcases h with h | ⟨t, od, ht, hrun, hne⟩
  · cases hts : c.tasks_func [ym] with
    | nil => simp [produceRun]
    | cons t rest =>
      cases rest with
      | nil => rw [hts] at h; simp at h
      | cons t2 r2 => simp [produceRun]
  · rw [ht]
    simp only [produceRun, cutout_do_task, hrun]
    cases hd : od.getD [] with
    | nil => simp [produceCheckData]
    | cons p rest =>
      obtain ⟨ym1, ods⟩ := p
      cases rest with
      | nil =>
        have hne1 : ym1 ≠ ym := by
          intro hcontra
          exact hne ods (by rw [hd, hcontra])
        simp [produceCheckData, hne1]
      | cons q r2 => simp [produceCheckData]

/-- C6: a successful single-period query returns the partial dataset whose
period identifier is exactly the requested year-month, and leaves the
archive directory untouched (the task runs in in-memory query mode). -/
theorem produce_specific_ok (c : Cutout) (ym : YM) (dir d1 : Dir) (ods : Option DS)
    (h : cutout_produce_specific_dataseries c ym dir = .ok (d1, ods)) :
    d1 = dir ∧ ∃ t, c.tasks_func [ym] = [t] ∧ t.run = .ok (some [(ym, ods)]) := by
  unfold cutout_produce_specific_dataseries at h
  cases hts : c.tasks_func [ym] with
  | nil => rw [hts] at h; exact absurd h (by simp [produceRun])
  | cons t rest =>
    cases rest with
    | cons t2 r2 => rw [hts] at h; exact absurd h (by simp [produceRun])
    | nil =>
      rw [hts] at h
      simp only [produceRun] at h
      cases hrun : t.run with
      | error e =>
        rw [cutout_do_task_raises t e false _ dir hrun] at h
        exact absurd h (by simp)
      | ok od =>
        rw [cutout_do_task_query_mode t od _ dir hrun] at h
        simp only [Option.getD_some] at h
        cases hd : od.getD [] with
        | nil => rw [hd] at h; exact absurd h (by simp [produceCheckData])
        | cons p rest1 =>
          obtain ⟨ym1, ods1⟩ := p
          cases rest1 with
          | cons q r2 => rw [hd] at h; exact absurd h (by simp [produceCheckData])
          | nil =>
            rw [hd] at h
            by_cases hym : ym1 = ym
            · subst hym
              simp only [produceCheckData, if_pos rfl] at h
              obtain ⟨hdir, hods⟩ : dir = d1 ∧ ods1 = ods := by
                simpa using h
              refine ⟨hdir.symm, t, rfl, ?_⟩
              cases hod : od with
              | none => rw [hod] at hd; simp at hd
              | some l =>
                rw [hod] at hd
                simp only [Option.getD_some] at hd
                rw [hrun, hod, hd, hods]
            · simp only [produceCheckData, if_neg hym] at h
              exact absurd h (by simp)

/-- C7: with sub-daily (`'daily'`) file granularity the metadata resolver
reads probe time samples `[0, 1, -1]` to infer the step; a probe returning
fewer than 2 time samples makes that read raise (`SchemaInferenceError`). -/
theorem get_meta_schema_inference (cfg : MetaConfig) (ys : PySlice)
    (years : Nat × Nat) (months : Option (Nat × Nat))
    (h1 : cfg.file_granularity = .daily) (h2 : cfg.probeTime.length < 2) :
    cutout_get_meta cfg ys years months = .error .schemaInference := by
  unfold cutout_get_meta
  rw [h1]
  cases hp : cfg.probeTime with
  | nil => rfl
  | cons a tl =>
    cases tl with
    | nil => rfl
    | cons b tl2 => rw [hp] at h2; simp at h2; omega

/-- C3: after a fully successful `cutout_prepare` run, the archive directory
contains exactly one final file per requested period identifier and zero
staging files, regardless of how many tasks or series contributed staging
files to each period. -/
theorem prepare_success_postcondition (c : Cutout) (ow g : Bool)
    (dir : Option Dir) (d3 : Dir)
    (h : cutout_prepare c ow g dir = (some d3, .ok none)) :
    (∀ ym ∈ c.yearmonths, (d3.map Prod.fst).count (FsPath.final ym) = 1) ∧
    (∀ ym i, FsPath.staging ym i ∉ d3.map Prod.fst) := by
  unfold cutout_prepare at h
  by_cases hprep : c.prepared = true ∧ ow = false
  · rw [if_pos hprep] at h
    simp at h
  · rw [if_neg hprep] at h
    simp only [] at h
    cases hrt : runTasks c.yearmonths (c.tasks_func c.yearmonths).enum
        (fsWrite [] .meta
          (if g then setVar c.metaDS "height" c.heightVal else c.metaDS)) with
    | error e => rw [hrt] at h; simp at h
    | ok d2 =>
      rw [hrt] at h
      replace h : (match mergeLoop g c.heightVal c.yearmonths d2 with
          | (d4, some e) => (some d4, Except.error e)
          | (d4, none) => (some d4, Except.ok (none : Option Bool))) =
          (some d3, .ok none) := h
      cases hml : mergeLoop g c.heightVal c.yearmonths d2 with
      | mk dm oe =>
        rw [hml] at h
        cases oe with
        | some e => simp at h
        | none =>
          obtain rfl : dm = d3 := by simpa using h
          have hnodup1 : ((fsWrite [] FsPath.meta
              (if g then setVar c.metaDS "height" c.heightVal else c.metaDS)).map
                Prod.fst).Nodup := by
            simp [fsWrite]
          have hnodup2 := runTasks_keys_nodup c.yearmonths _ _ d2 hrt hnodup1
          have hnodup3 := mergeLoop_keys_nodup g c.heightVal c.yearmonths d2 dm
            hml hnodup2
          obtain ⟨horig, hall⟩ := mergeLoop_ok_main g c.heightVal c.yearmonths
            d2 dm hml
          constructor
          · intro ym hym
            obtain ⟨ds0, hds0⟩ := (hall ym hym).2
            exact List.count_eq_one_of_mem hnodup3
              (List.mem_map.mpr ⟨(FsPath.final ym, ds0), hds0, rfl⟩)
          · intro ym i hk
            obtain ⟨e, he, hke⟩ := List.mem_map.mp hk
            rcases horig e he with hin2 | ⟨ym3, _, hf3⟩
            · rcases runTasks_ok_mem c.yearmonths _ _ d2 hrt e hin2 with
                hin1 | ⟨ym2, i2, hym2, hst2⟩
              · rcases (fsWrite_mem _ _ _ _).mp hin1 with ⟨hnil, _⟩ | heq
                · simp at hnil
                · rw [heq] at hke
                  cases hke
              · rw [hst2] at hke
                have hstg := (hall ym2 hym2).1 e he
                rw [hst2] at hstg
                simp [isStagingOf] at hstg
            · rw [hke] at hf3
              cases hf3

/-- C4 (amended): when a period has at least two staging files, the merge
stage combines them under `no_conflicts` compatibility, not `identical`:
(a) whenever two of the staging files report different values for a shared
data variable, the merge for that period fails with `MergeConflictError`;
(b) whenever the merge succeeds, the final per-period file exists and its
index coordinates contain every value every staging file reported for them —
staging files disagreeing on an index coordinate are combined by value union
(concatenate / outer join) rather than rejected. -/
theorem merge_stage_no_conflicts_merge (g : Bool) (hv : Int) (ym : YM) (d : Dir)
    (hlen : 2 ≤ (globStaging d ym).length) :
    (∀ a ∈ (globStaging d ym).map (·.2), ∀ b ∈ (globStaging d ym).map (·.2),
      ∀ n va vb, alookup n a.vars = some va → alookup n b.vars = some vb →
        va ≠ vb → mergePeriod g hv ym d = .error .mergeConflict) ∧
    (∀ d1, mergePeriod g hv ym d = .ok d1 →
      ∃ m, fsLookup d1 (.final ym) = some m ∧
        ∀ a ∈ (globStaging d ym).map (·.2), ∀ n v,
          alookup n a.coords = some v →
          ∃ u, alookup n m.coords = some u ∧ ∀ x ∈ v, x ∈ u) := by
  cases hf : globStaging d ym with
  | nil => rw [hf] at hlen; simp at hlen
  | cons e1 tl =>
    cases tl with
    | nil => rw [hf] at hlen; simp at hlen
    | cons e2 r2 =>
      constructor
      · intro a ha b hb n va vb hva hvb hne
        have hma : mergeAll ((e1 :: e2 :: r2).map (·.2)) = .error .mergeConflict :=
          mergeAll_var_conflict _ a b ha hb n va vb hva hvb hne
        unfold mergePeriod
        rw [hf]
        simp only [mergeGlobbed, mergeWrite, hma]
      · intro d1 h1
        unfold mergePeriod at h1
        rw [hf] at h1
        simp only [mergeGlobbed] at h1
        unfold mergeWrite at h1
        cases hma : mergeAll ((e1 :: e2 :: r2).map (·.2)) with
        | error e => rw [hma] at h1; cases h1
        | ok m0 =>
          rw [hma] at h1
          simp only [Except.ok.injEq] at h1
          subst h1
          have hnk : FsPath.final ym ∉ (e1 :: e2 :: r2).map (fun e => e.1) := by
            intro hk
            obtain ⟨e, he, hke⟩ := List.mem_map.mp hk
            have hee : e ∈ globStaging d ym := by rw [hf]; exact he
            obtain ⟨i, hi⟩ := globStaging_key d ym e hee
            rw [hi] at hke
            cases hke
          refine ⟨(if g then setVar m0 "height" hv else m0), ?_, ?_⟩
          · rw [fsLookup_eraseAll_of_not_mem _ _ _ hnk, fsLookup_write_self]
          · intro a ha n v hv
            obtain ⟨u, hu, hsub⟩ := mergeAll_ok_coord_sub _ m0 hma a ha n v hv
            refine ⟨u, ?_, hsub⟩
            cases g <;> simpa [setVar] using hu

/-- C1: if preparation is actually attempted (the cutout is not already
prepared, or overwrite is requested) and some task's execution raises, then
`cutout_prepare` deletes the entire partially constructed archive directory
(it does not exist afterward) and re-raises the original exception
unchanged: the error returned to the caller is exactly the exception some
task raised. -/
theorem prepare_task_failure_purges_and_reraises (c : Cutout) (ow g : Bool)
    (dir : Option Dir)
    (h1 : ¬(c.prepared = true ∧ ow = false))
    (h2 : ∃ p ∈ (c.tasks_func c.yearmonths).enum,
      taskError c.yearmonths p.1 p.2 ≠ none) :
    (cutout_prepare c ow g dir).1 = none ∧
    ∃ e, (cutout_prepare c ow g dir).2 = .error e ∧
      ∃ p ∈ (c.tasks_func c.yearmonths).enum,
        taskError c.yearmonths p.1 p.2 = some e := by
  obtain ⟨e, herr, hw⟩ := runTasks_error_of_mem c.yearmonths
    (c.tasks_func c.yearmonths).enum
    (fsWrite [] .meta (if g then setVar c.metaDS "height" c.heightVal else c.metaDS))
    h2
  unfold cutout_prepare
  rw [if_neg h1]
  simp only [herr]
  refine ⟨?_, ⟨e, ?_, hw⟩⟩ <;> trivial

/-! ## Concrete inputs for counterexamples and witnesses -/

/-- A small concrete dataset. -/
def exDS : DS := ⟨[("x", [0, 1])], [("temp", 3)]⟩

/-- A cutout already marked prepared. -/
def exPreparedCutout : Cutout :=
  { prepared := true, yearmonths := [(2011, 1)], metaDS := ⟨[], []⟩,
    heightVal := 0, tasks_func := fun _ => [] }

/-- C2 counterexample: on a concrete cutout already marked prepared, the
geodata `cutout_prepare` called with `overwrite=False` does NOT raise
`AlreadyPreparedError`: it returns `True` (and leaves the directory alone),
refuting the claim as stated. -/
theorem prepare_already_prepared_counterexample :
    cutout_prepare exPreparedCutout false false (some [(.meta, exDS)]) =
      (some [(.meta, exDS)], .ok (some true)) ∧
    (cutout_prepare exPreparedCutout false false (some [(.meta, exDS)])).2 ≠
      .error .alreadyPrepared :=
  ⟨rfl, fun h => Except.noConfusion h⟩

/-- C2 (amended): calling the geodata `cutout_prepare` with
`overwrite=False` on an already prepared cutout returns `True` immediately,
raises nothing, and performs no filesystem mutation (the archive directory
is returned exactly as it was). -/
theorem prepare_already_prepared_returns_true (c : Cutout) (g : Bool)
    (dir : Option Dir) (h : c.prepared = true) :
    cutout_prepare c false g dir = (dir, .ok (some true)) := by
  simp [cutout_prepare, h]

/-- Witness for the amended C2 at a concrete prepared cutout. -/
theorem prepare_already_prepared_returns_true_witness :
    exPreparedCutout.prepared = true ∧
    cutout_prepare exPreparedCutout false false (some [(.meta, exDS)]) =
      (some [(.meta, exDS)], .ok (some true)) :=
  ⟨rfl, prepare_already_prepared_returns_true exPreparedCutout false _ rfl⟩

/-- An unprepared cutout whose single task raises `provider 7`. -/
def exFailCutout : Cutout :=
  { prepared := false, yearmonths := [(2011, 1)], metaDS := ⟨[], []⟩,
    heightVal := 0, tasks_func := fun _ => [⟨.error (.provider 7)⟩] }

/-- A cutout whose single task writes one dataset for its one period. -/
def exC3Cutout : Cutout :=
  { prepared := false, yearmonths := [(2011, 1)], metaDS := ⟨[], []⟩,
    heightVal := 0,
    tasks_func := fun _ => [⟨.ok (some [((2011, 1), some exDS)])⟩] }

/-- Witness for C3: a concrete successful preparation, with the final
directory holding the metadata file and exactly one final file for the one
requested period, and no staging file. -/
theorem prepare_success_witness :
    cutout_prepare exC3Cutout false false none =
      (some [(.meta, ⟨[], []⟩), (.final (2011, 1), exDS)], .ok none) ∧
    ((∀ ym ∈ exC3Cutout.yearmonths,
        ((([(.meta, (⟨[], []⟩ : DS)), (.final (2011, 1), exDS)] : Dir)).map
          Prod.fst).count (FsPath.final ym) = 1) ∧
      (∀ ym i, FsPath.staging ym i ∉
        (([(.meta, (⟨[], []⟩ : DS)), (.final (2011, 1), exDS)] : Dir)).map
          Prod.fst)) :=
  ⟨rfl, prepare_success_postcondition exC3Cutout false false none _ rfl⟩

/-- A directory holding two staging files of the same period that carry
distinct data variables and disagree on the shared index coordinate `x`
(values `[0]` vs `[1]`). -/
def exTwoStagingDir : Dir :=
  [(.staging (2011, 1) 0, ⟨[("x", [0])], [("u", 1)]⟩),
   (.staging (2011, 1) 1, ⟨[("x", [1])], [("v", 2)]⟩)]

/-- C4 counterexample: on two staging files of the same period that report
different values for the overlapping coordinate `x`, the merge stage does
NOT fail with `MergeConflictError` as the claim states: like
`open_mfdataset(combine='by_coords')` it combines them, producing one final
file whose `x` coordinate is the union `[0, 1]` of both values. -/
theorem merge_stage_coordinate_union_counterexample :
    mergePeriod false 0 (2011, 1) exTwoStagingDir =
      .ok [(.final (2011, 1), ⟨[("x", [0, 1])], [("u", 1), ("v", 2)]⟩)] ∧
    mergePeriod false 0 (2011, 1) exTwoStagingDir ≠ .error .mergeConflict :=
  ⟨rfl, fun h => Except.noConfusion h⟩

/-- Witness for the amended C4 at the concrete two-file directory. -/
theorem merge_stage_no_conflicts_merge_witness :
    2 ≤ (globStaging exTwoStagingDir (2011, 1)).length ∧
    ((∀ a ∈ (globStaging exTwoStagingDir (2011, 1)).map (·.2),
        ∀ b ∈ (globStaging exTwoStagingDir (2011, 1)).map (·.2),
        ∀ n va vb, alookup n a.vars = some va → alookup n b.vars = some vb →
          va ≠ vb →
          mergePeriod false 0 (2011, 1) exTwoStagingDir = .error .mergeConflict) ∧
      (∀ d1, mergePeriod false 0 (2011, 1) exTwoStagingDir = .ok d1 →
        ∃ m, fsLookup d1 (.final (2011, 1)) = some m ∧
          ∀ a ∈ (globStaging exTwoStagingDir (2011, 1)).map (·.2), ∀ n v,
            alookup n a.coords = some v →
            ∃ u, alookup n m.coords = some u ∧ ∀ x ∈ v, x ∈ u)) :=
  ⟨by decide,
    merge_stage_no_conflicts_merge false 0 (2011, 1) exTwoStagingDir (by decide)⟩

/-- A cutout whose task-generation function yields no task at all. -/
def exNoTaskCutout : Cutout :=
  { prepared := false, yearmonths := [], metaDS := ⟨[], []⟩, heightVal := 0,
    tasks_func := fun _ => [] }

/-- Witness for C5: with a task-generation function yielding zero tasks, the
single-period query fails with `InvariantViolationError`. -/
theorem produce_specific_invariant_violation_witness :
    ((exNoTaskCutout.tasks_func [(2011, 1)]).length ≠ 1 ∨
      ∃ t od, exNoTaskCutout.tasks_func [(2011, 1)] = [t] ∧ t.run = .ok od ∧
        ∀ d, od.getD [] ≠ [((2011, 1), d)]) ∧
    cutout_produce_specific_dataseries exNoTaskCutout (2011, 1) [] =
      .error .invariantViolation :=
  ⟨Or.inl (by simp [exNoTaskCutout]),
    produce_specific_invariant_violation exNoTaskCutout (2011, 1) []
      (Or.inl (by simp [exNoTaskCutout]))⟩

/-- A cutout whose single task returns one dataset for period 2011-01. -/
def exOkCutout : Cutout :=
  { prepared := false, yearmonths := [(2011, 1)], metaDS := ⟨[], []⟩,
    heightVal := 0,
    tasks_func := fun _ => [⟨.ok (some [((2011, 1), some exDS)])⟩] }

/-- Witness for C6: a concrete successful single-period query returns the
dataset of the requested period and leaves the directory unchanged. -/
theorem produce_specific_ok_witness :
    cutout_produce_specific_dataseries exOkCutout (2011, 1) [(.meta, exDS)] =
      .ok ([(.meta, exDS)], some exDS) ∧
    ([(.meta, exDS)] : Dir) = [(.meta, exDS)] ∧
    ∃ t, exOkCutout.tasks_func [(2011, 1)] = [t] ∧
      t.run = .ok (some [((2011, 1), some exDS)]) :=
  ⟨rfl, produce_specific_ok exOkCutout (2011, 1) [(.meta, exDS)] [(.meta, exDS)]
    (some exDS) rfl⟩

/-- C8: with daily-means granularity the metadata resolver synthesizes a
time axis holding exactly one timestamp per calendar day: the axis starts at
the first day of the start month, ends at the last day of the end month, has
no duplicates, and contains a date exactly when the date's month lies in the
requested range and its day number is a valid day of that month (no gaps). -/
theorem get_meta_dailymeans_time_axis (cfg : MetaConfig) (ys : PySlice)
    (ysr msr yer mer : Nat)
    (hg : cfg.file_granularity = .dailymeans)
    (h1 : 1 ≤ msr) (h2 : msr ≤ 12) (h3 : 1 ≤ mer) (h4 : mer ≤ 12)
    (hle : monthIdx ysr msr ≤ monthIdx yer mer) :
    ∃ r, cutout_get_meta cfg ys (ysr, yer) (some (msr, mer)) = .ok r ∧
      r.time = .days (dateRangeDaily ysr msr yer mer) ∧
      (dateRangeDaily ysr msr yer mer).head? = some ⟨ysr, msr, 1⟩ ∧
      (dateRangeDaily ysr msr yer mer).getLast? =
        some ⟨yer, mer, daysInMonth yer mer⟩ ∧
      (dateRangeDaily ysr msr yer mer).Nodup ∧
      (∀ d : Date, d ∈ dateRangeDaily ysr msr yer mer ↔
        (1 ≤ d.month ∧ d.month ≤ 12 ∧
          monthIdx ysr msr ≤ monthIdx d.year d.month ∧
          monthIdx d.year d.month ≤ monthIdx yer mer ∧
          1 ≤ d.day ∧ d.day ≤ daysInMonth d.year d.month)) := by
  have hres : cutout_get_meta cfg ys (ysr, yer) (some (msr, mer)) =
      .ok ⟨prepare_lat_direction cfg.lat_direction ys,
        .days (dateRangeDaily ysr msr yer mer),
        List.range' ysr (yer + 1 - ysr), List.range' msr (mer + 1 - msr),
        stackYM (List.range' ysr (yer + 1 - ysr))
          (List.range' msr (mer + 1 - msr))⟩ := by
    unfold cutout_get_meta
    rw [hg]
    rfl
  exact ⟨_, hres, rfl, head?_dateRangeDaily ysr msr yer mer h1 h2 hle,
    getLast?_dateRangeDaily ysr msr yer mer h3 h4 hle,
    nodup_dateRangeDaily ysr msr yer mer,
    fun d => mem_dateRangeDaily ysr msr yer mer d⟩

/-- A metadata configuration with daily-means granularity. -/
def exDailymeansCfg : MetaConfig := ⟨true, .dailymeans, []⟩

/-- Witness for C8 at January-February 2011. -/
theorem get_meta_dailymeans_witness :
    (exDailymeansCfg.file_granularity = .dailymeans ∧
      1 ≤ 1 ∧ 1 ≤ 12 ∧ 1 ≤ 2 ∧ 2 ≤ 12 ∧ monthIdx 2011 1 ≤ monthIdx 2011 2) ∧
    ∃ r, cutout_get_meta exDailymeansCfg ⟨40, 70, none⟩ (2011, 2011)
        (some (1, 2)) = .ok r ∧
      r.time = .days (dateRangeDaily 2011 1 2011 2) ∧
      (dateRangeDaily 2011 1 2011 2).head? = some ⟨2011, 1, 1⟩ ∧
      (dateRangeDaily 2011 1 2011 2).getLast? =
        some ⟨2011, 2, daysInMonth 2011 2⟩ ∧
      (dateRangeDaily 2011 1 2011 2).Nodup ∧
      (∀ d : Date, d ∈ dateRangeDaily 2011 1 2011 2 ↔
        (1 ≤ d.month ∧ d.month ≤ 12 ∧
          monthIdx 2011 1 ≤ monthIdx d.year d.month ∧
          monthIdx d.year d.month ≤ monthIdx 2011 2 ∧
          1 ≤ d.day ∧ d.day ≤ daysInMonth d.year d.month)) :=
  ⟨⟨rfl, by decide, by decide, by decide, by decide, by decide⟩,
    get_meta_dailymeans_time_axis exDailymeansCfg ⟨40, 70, none⟩ 2011 1 2011 2
      rfl (by decide) (by decide) (by decide) (by decide) (by decide)⟩

/-- A metadata configuration with sub-daily granularity whose probe returned
a single time sample. -/
def exDailyCfg : MetaConfig := ⟨false, .daily, [5]⟩

/-- Witness for C7 on the concrete one-sample probe. -/
theorem get_meta_schema_inference_witness :
    (exDailyCfg.file_granularity = .daily ∧ exDailyCfg.probeTime.length < 2) ∧
    cutout_get_meta exDailyCfg ⟨70, 40, none⟩ (2011, 2011) none =
      .error .schemaInference :=
  ⟨⟨rfl, by decide⟩,
    get_meta_schema_inference exDailyCfg ⟨70, 40, none⟩ (2011, 2011) none rfl
      (by decide)⟩

/-- Witness for C1: on a concrete cutout whose task raises, `cutout_prepare`
returns an absent directory and the task's own exception. -/
theorem prepare_task_failure_witness :
    (¬(exFailCutout.prepared = true ∧ false = false)) ∧
    ((cutout_prepare exFailCutout false false (some [(.meta, exDS)])).1 = none ∧
      ∃ e, (cutout_prepare exFailCutout false false (some [(.meta, exDS)])).2 = .error e ∧
        ∃ p ∈ (exFailCutout.tasks_func exFailCutout.yearmonths).enum,
          taskError exFailCutout.yearmonths p.1 p.2 = some e) := by
  refine ⟨by simp [exFailCutout], ?_⟩
  exact prepare_task_failure_purges_and_reraises exFailCutout false false
    (some [(.meta, exDS)]) (by simp [exFailCutout])
    ⟨(0, ⟨.error (.provider 7)⟩), List.Mem.head _, by simp [taskError, cutout_do_task]⟩

end Geodata
